import Mathlib

/-!
Verification development for the XPath parser / evaluator core of the
`xslt-processor` repository (`src/xpath/xpath.ts`, `src/dom/functions.ts`).

The TypeScript sources are shallowly embedded below:

* the shift/reduce parsing machinery of class `XPath` (`xPathParse`,
  `findXPathRuleForExpression`, `xPathMatchStack`, `xPathReduce`,
  `findGrammarRuleCandidate`, `xPathGrammarPrecedence`, `stackToString`,
  `makeSimpleExpr`, `makeSimpleExpr2`);
* the sorting utility (`xPathSort` / `xPathSortByKey`);
* the step engine (`xPathStep`) with its `returnOnFirstMatch` optimization;
* the version-dispatch prologue of `xmlParse`.

The token-rule table and grammar-constant module (`src/xpath/tokens.ts`) and
the expression classes (`src/xpath/expressions/*`) are not part of the
provided sources; where the algorithms consume them they are taken as
explicit parameters (token rules as anchored matching functions, grammar
rules as data records), and where a claim depends on their behaviour the
definition is modelled from the specification and marked as such in its
doc comment.  Strings are processed through their character lists so that
every definition evaluates by `rfl`/`decide` on concrete inputs.
-/

/-! ### Character/string helpers (models of the JS string primitives used) -/

/-- JS `\w` character class: `[A-Za-z0-9_]`. -/
def isWordChar (c : Char) : Bool :=
  c.isAlpha || c.isDigit || c = '_'

/-- Model of `expression.replace(/^\s*/, '')`: strip leading whitespace. -/
def stripLeading (s : String) : String :=
  ⟨s.data.dropWhile Char.isWhitespace⟩

/-- Model of JS `s.substr(n)`: drop the first `n` code units (characters here). -/
def strDrop (s : String) (n : Nat) : String :=
  ⟨s.data.drop n⟩

/-- Model of JS `s.length` (measured in characters here). -/
def strLen (s : String) : Nat :=
  s.data.length

/-- Model of JS `s.startsWith(p)` / an anchored literal regex test. -/
def strStartsWith (s p : String) : Bool :=
  p.data.isPrefixOf s.data

/-- Split a character list at a separator character (model of JS `split`). -/
def splitCharList (sep : Char) : List Char → List (List Char)
  | [] => [[]]
  | c :: cs =>
    let rest := splitCharList sep cs
    if c = sep then
      [] :: rest
    else
      match rest with
      | [] => [[c]]
      | seg :: segs => (c :: seg) :: segs

/-- Model of JS `expr.split('/')`. -/
def splitSlash (s : String) : List String :=
  (splitCharList '/' s.data).map (fun cs => ⟨cs⟩)

/-- Lexicographic order on character lists by code point: the JS `<`
relation on strings. -/
def listLtB : List Char → List Char → Bool
  | [], [] => false
  | [], _ :: _ => true
  | _ :: _, [] => false
  | a :: as, b :: bs =>
    if a.toNat < b.toNat then true
    else if b.toNat < a.toNat then false
    else listLtB as bs

/-- Model of JS `s < t` on strings. -/
def strLtB (s t : String) : Bool :=
  listLtB s.data t.data

/-! ### Tags, frames and semantic values

A `Tag` stands for one of the token-rule or nonterminal objects of the
source.  In the source these live in `tokens.ts` / `xpath-grammar-rules.ts`
(not under `src/`); `key` is the unique number `xPathParseInit` assigns,
`prec` is the token precedence (`0` when the source object has none, since
the source reads it with `rule.prec ? rule.prec : 0` and `tag.prec || 2`),
`left` is the token associativity flag read by `xPathReduce`. -/

structure Tag where
  key : Nat
  label : String
  prec : Nat
  left : Bool
deriving DecidableEq, Repr

/-- Semantic values: the expression objects built by the factory functions of
class `XPath` (`TokenExpr`, `LocationExpr`, `StepExpr`, node tests, …). -/
inductive SemVal where
  | token (value : String)
  | location (absolute : Bool) (steps : List SemVal)
  | step (axis : String) (nodeTest : SemVal) (predicates : List SemVal)
  | nodeTestAny
  | nodeTestElementOrAttribute
  | nodeTestNC (ncname : String)
  | nodeTestName (name : String)
  | nodeTestText
  | nodeTestComment
  | nodeTestPI (target : String)
  | predicateExpr (expr : SemVal)
  | filterExpr (expr : SemVal) (predicates : List SemVal)
  | unionExpr (lhs rhs : SemVal)
  | pathExpr (filterPart rel : SemVal)
  | binaryExpr (lhs : SemVal) (op : String) (rhs : SemVal)
  | unaryMinusExpr (expr : SemVal)
  | literal (value : String)
  | numberExpr (value : String)
  | varRef (name : String)
  | functionCallExpr (name : SemVal) (args : List SemVal)

/-- A parse-stack frame (`GrammarRuleCandidate` in the source): grammar tag,
precedence and semantic value.  The stack is represented with its TOP at the
HEAD of the list (the source matches and pops from the array's end). -/
structure Frame where
  tag : Tag
  prec : Nat
  expr : SemVal

/-- `makeTokenExpr` of class `XPath`. -/
def makeTokenExpr (m : String) : SemVal :=
  SemVal.token m

/-! ### Lexer (`findXPathRuleForExpression`)

A token rule couples a tag with its anchored regular expression, modelled as
a function returning the matched text (`None` when the regex does not
match).  The actual table `xPathTokenRules` lives in `tokens.ts`, which is
not among the provided sources, so the table is a parameter throughout. -/

structure TokenRule where
  tag : Tag
  re : String → Option String

/-- The loop of `findXPathRuleForExpression` over `xPathTokenRules`: the
first rule in table order whose regex yields a non-empty match wins (a rule
whose match is `null` or empty is skipped). -/
def lexFirstMatch : List TokenRule → String → Option (Tag × String)
  | [], _ => none
  | r :: rest, expression =>
    match r.re expression with
    | some m => if strLen m > 0 then some (r.tag, m) else lexFirstMatch rest expression
    | none => lexFirstMatch rest expression

/-- The distinguished token objects referenced by name in
`findXPathRuleForExpression` (imported from the absent `tokens.ts`). -/
structure LexTags where
  tokDiv : Tag
  tokMod : Tag
  tokAnd : Tag
  tokOr : Tag
  tokQName : Tag
  tokAt : Tag
  tokDSlash : Tag
  tokSlash : Tag
  tokAxis : Tag
  tokDollar : Tag

/-- The operator-keyword demotion test of `findXPathRuleForExpression`:
`previous` is the token frame emitted in the previous iteration. -/
def previousAllowsDemotion (tags : LexTags) : Option Frame → Bool
  | none => true
  | some previous =>
    previous.tag = tags.tokAt || previous.tag = tags.tokDSlash ||
      previous.tag = tags.tokSlash || previous.tag = tags.tokAxis ||
      previous.tag = tags.tokDollar

/-- `findXPathRuleForExpression` of class `XPath`: the first matching rule
of the table, with the operator keywords `div`, `mod`, `and`, `or` demoted
to `TOK_QNAME` after no token or one of `@ // / :: $`. -/
def findXPathRuleForExpression (tags : LexTags) (tbl : List TokenRule)
    (expression : String) (previous : Option Frame) : Option (Tag × String) :=
  match lexFirstMatch tbl expression with
  | none => none
  | some (rule, m) =>
    if (rule = tags.tokDiv || rule = tags.tokMod || rule = tags.tokAnd || rule = tags.tokOr)
        && previousAllowsDemotion tags previous then
      some (tags.tokQName, m)
    else
      some (rule, m)

/-! ### Fast-path expression builders (`makeSimpleExpr`, `makeSimpleExpr2`) -/

/-- `makeSimpleExpr` of class `XPath`. -/
def makeSimpleExpr (expression : String) (axis : Option String) : SemVal :=
  if strStartsWith expression "$" then
    SemVal.varRef (strDrop expression 1)
  else if strStartsWith expression "@" then
    SemVal.location false
      [SemVal.step "attribute" (SemVal.nodeTestName (strDrop expression 1)) []]
  else if strLen expression > 0 && expression.data.all Char.isDigit then
    SemVal.numberExpr expression
  else
    SemVal.location false
      [SemVal.step (axis.getD "child") (SemVal.nodeTestName expression) []]

/-- `makeSimpleExpr2` of class `XPath`. -/
def makeSimpleExpr2 (expr : String) : SemVal :=
  SemVal.location false
    ((splitSlash expr).map (fun s => SemVal.step "child" (SemVal.nodeTestName s) []))

/-- The first fast-path test of `xPathParse`: `/^(\$|@)?\w+$/i`. -/
def xPathSimpleRegex (s : String) : Bool :=
  let t := if strStartsWith s "$" || strStartsWith s "@" then strDrop s 1 else s
  strLen t > 0 && t.data.all isWordChar

/-- The second fast-path test of `xPathParse`: `/^\w+(\/\w+)*$/i`. -/
def xPathSimple2Regex (s : String) : Bool :=
  (splitSlash s).all (fun seg => strLen seg > 0 && seg.data.all isWordChar)

/-! ### Grammar rules and the stack matcher (`xPathMatchStack`)

A grammar-rule pattern element is a tag or one of the quantifier markers
`Q_MM` (`*`), `Q_01` (`?`), `Q_1M` (`+`).  A rule carries the target
nonterminal tag, the pattern, the declared precedence (`-1` = derive from
the pattern's token precedences) and the semantic-value factory. -/

inductive Pat where
  | sym (t : Tag)
  | qMM
  | q01
  | q1M

/-- An element of a successful stack match: a single frame, or the group an
adjacent quantifier collected (`qmatch` in the source, in bottom-to-top
stack order after its `reverseInPlace`). -/
inductive MatchElem where
  | frame (f : Frame)
  | group (fs : List Frame)

/-- A semantic-value argument as passed to a rule factory by `xPathReduce`
(`mapExpr(candidate.match, (m) => m.expr)`): a frame contributes its
expression, a quantifier group contributes the list of its expressions. -/
inductive Arg where
  | one (e : SemVal)
  | many (es : List SemVal)

structure GrammarRule where
  target : Tag
  pattern : List Pat
  prec : Int
  action : List Arg → SemVal

/-- The loop body of `xPathMatchStack`, walking the pattern from its END
against the top of the stack (our list head).  The input pattern is
reversed; the produced elements are in reversed pattern order. -/
def xPathMatchStackAux : List Pat → List Frame → Option (List MatchElem × Nat)
  | [], _ => some ([], 0)
  | _ :: _, [] => none
  | Pat.sym t :: restPat, f :: restStack =>
    if f.tag = t then
      (xPathMatchStackAux restPat restStack).map
        (fun r => (MatchElem.frame f :: r.1, r.2 + 1))
    else
      none
  | Pat.qMM :: restPat, stack =>
    match restPat with
    | Pat.sym t :: restPat' =>
      let taken := stack.takeWhile (fun f => f.tag = t)
      (xPathMatchStackAux restPat' (stack.drop taken.length)).map
        (fun r => (MatchElem.group taken.reverse :: r.1, r.2 + taken.length))
    | _ => none
  | Pat.q01 :: restPat, stack =>
    match restPat with
    | Pat.sym t :: restPat' =>
      -- the source's `ds < 2` guard lets `?` collect up to two frames
      let taken := (stack.takeWhile (fun f => f.tag = t)).take 2
      (xPathMatchStackAux restPat' (stack.drop taken.length)).map
        (fun r => (MatchElem.group taken.reverse :: r.1, r.2 + taken.length))
    | _ => none
  | Pat.q1M :: restPat, stack =>
    match restPat with
    | Pat.sym t :: restPat' =>
      match stack with
      | f :: _ =>
        if f.tag = t then
          let taken := stack.takeWhile (fun g => g.tag = t)
          (xPathMatchStackAux restPat' (stack.drop taken.length)).map
            (fun r => (MatchElem.group taken.reverse :: r.1, r.2 + taken.length))
        else
          none
      | [] => none
    | _ => none

/-- `xPathMatchStack` of class `XPath`: match a rule pattern greedily (no
backtracking) against the top of the stack, returning the matched elements
in pattern order together with `matchlength`, the number of frames
consumed.  `none` corresponds to the source's empty-array failure result. -/
def xPathMatchStack (stack : List Frame) (pattern : List Pat) :
    Option (List MatchElem × Nat) :=
  (xPathMatchStackAux pattern.reverse stack).map (fun r => (r.1.reverse, r.2))

/-- `xPathTokenPrecedence` of class `XPath` (`tag.prec || 2`). -/
def xPathTokenPrecedence (tag : Tag) : Nat :=
  if tag.prec = 0 then 2 else tag.prec

/-- Precedence of one pattern element; the quantifier markers are plain
objects without `prec`, so they yield the default `2`. -/
def patPrecedence : Pat → Nat
  | Pat.sym t => xPathTokenPrecedence t
  | _ => 2

/-- `xPathGrammarPrecedence` of class `XPath` for a rule candidate: the
declared rule precedence when it is `≥ 0`, otherwise the maximum of the
pattern elements' token precedences.  (The source function also has
branches for bare token frames and quantifier groups; its only call site,
`findGrammarRuleCandidate`, always passes a candidate carrying a rule.) -/
def xPathGrammarPrecedence (rule : GrammarRule) : Nat :=
  if rule.prec ≥ 0 then
    rule.prec.toNat
  else
    (rule.pattern.map patPrecedence).foldl max 0

/-- A reduce candidate, as assembled by `findGrammarRuleCandidate`. -/
structure Candidate where
  tag : Tag
  rule : GrammarRule
  matchElems : List MatchElem
  matchlength : Nat
  prec : Nat

/-- `findGrammarRuleCandidate` of class `XPath`: first rule of the bin whose
pattern matches the stack top (the source tests `match.length`, so a
zero-element match — only possible for an empty pattern — does not count). -/
def findGrammarRuleCandidate : List GrammarRule → List Frame → Option Candidate
  | [], _ => none
  | rule :: rest, stack =>
    match xPathMatchStack stack rule.pattern with
    | some (melems, mlen) =>
      if melems.isEmpty then
        findGrammarRuleCandidate rest stack
      else
        some { tag := rule.target, rule := rule, matchElems := melems,
               matchlength := mlen, prec := xPathGrammarPrecedence rule }
    | none => findGrammarRuleCandidate rest stack

/-- The bin keys `xPathParseInit` computes for one rule (scanning the
pattern from its last element, following quantifiers to their symbols and
continuing past `Q_MM`/`Q_01`); input is the reversed pattern. -/
def binKeysRev : List Pat → List Nat
  | Pat.q1M :: rest =>
    match rest with
    | Pat.sym t :: _ => [t.key]
    | _ => []
  | Pat.qMM :: rest =>
    match rest with
    | Pat.sym t :: rest' => t.key :: binKeysRev rest'
    | _ => []
  | Pat.q01 :: rest =>
    match rest with
    | Pat.sym t :: rest' => t.key :: binKeysRev rest'
    | _ => []
  | Pat.sym t :: _ => [t.key]
  | [] => []

/-- The rule bin `this.xPathRules[key]`: the rules (in table order, which
`xPathParseInit` pre-sorts by descending pattern length) whose bin keys
include `key`. -/
def xPathRulesForKey (rules : List GrammarRule) (key : Nat) : List GrammarRule :=
  (rules.map (fun r =>
    ((binKeysRev r.pattern.reverse).filter (fun k => k = key)).map (fun _ => r))).flatten

/-- `mapExpr(candidate.match, (m) => m.expr)` as used by `xPathReduce`. -/
def matchExprs : List MatchElem → List Arg
  | [] => []
  | MatchElem.frame f :: rest => Arg.one f.expr :: matchExprs rest
  | MatchElem.group fs :: rest => Arg.many (fs.map (fun f => f.expr)) :: matchExprs rest

/-- The candidate lookup at the start of `xPathReduce` (empty stack or a
missing rule bin yields no candidate). -/
def xPathReduceCandidate (rules : List GrammarRule) (stack : List Frame) : Option Candidate :=
  match stack with
  | [] => none
  | top :: _ => findGrammarRuleCandidate (xPathRulesForKey rules top.tag.key) stack

/-- The shift/reduce decision of `xPathReduce`:
`!ahead || candidate.prec > ahead.prec || (ahead.tag.left && candidate.prec >= ahead.prec)`. -/
def reduceDecision (c : Candidate) : Option Frame → Bool
  | none => true
  | some ahead => decide (c.prec > ahead.prec) || (ahead.tag.left && decide (c.prec ≥ ahead.prec))

/-- `xPathReduce` of class `XPath`: returns whether a reduction was
performed together with the updated stack (reduce pops the matched frames
and pushes the candidate; otherwise the lookahead, when present, is
shifted). -/
def xPathReduce (rules : List GrammarRule) (stack : List Frame) (ahead : Option Frame) :
    Bool × List Frame :=
  match xPathReduceCandidate rules stack with
  | some c =>
    if reduceDecision c ahead then
      (true, { tag := c.tag, prec := c.prec, expr := c.rule.action (matchExprs c.matchElems) }
               :: stack.drop c.matchlength)
    else
      (false, match ahead with
              | some a => a :: stack
              | none => stack)
  | none =>
    (false, match ahead with
            | some a => a :: stack
            | none => stack)

/-! ### The main parse loop of `xPathParse` -/

/-- `stackToString` of class `XPath`: the residual stack frames' tag labels
joined by newlines, bottom to top. -/
def stackToString (stack : List Frame) : String :=
  stack.reverse.foldl
    (fun ret frame => if ret ≠ "" then ret ++ "\n" ++ frame.tag.label else ret ++ frame.tag.label)
    ""

/-- The inner `while (this.xPathReduce(stack, ahead))` loop, fuelled (the
source relies on the grammar to terminate it). -/
def xPathReduceLoop : Nat → List GrammarRule → List Frame → Option Frame →
    Option (List Frame)
  | 0, _, _, _ => none
  | fuel + 1, rules, stack, ahead =>
    match xPathReduce rules stack ahead with
    | (true, stack') => xPathReduceLoop fuel rules stack' ahead
    | (false, stack') => some stack'

/-- The `while (!done)` loop of `xPathParse`: strip leading whitespace, lex
the next token (passing the previous one for keyword demotion), consume the
match, then reduce repeatedly with the token as lookahead; when no token
rule matches, reduce with no lookahead and stop.  `none` = out of fuel. -/
def xPathParseLoop (tags : LexTags) (tbl : List TokenRule) (rules : List GrammarRule) :
    Nat → String → List Frame → Option Frame → Option (List Frame)
  | 0, _, _, _ => none
  | fuel + 1, expression, stack, previous =>
    let expression := stripLeading expression
    match findXPathRuleForExpression tags tbl expression previous with
    | some (rule, m) =>
      let ahead : Frame := { tag := rule, prec := rule.prec, expr := makeTokenExpr m }
      match xPathReduceLoop fuel rules stack (some ahead) with
      | none => none
      | some stack' =>
        xPathParseLoop tags tbl rules fuel (strDrop expression (strLen m)) stack' (some ahead)
    | none => xPathReduceLoop fuel rules stack none

/-- The parse cache `xPathParseCache`, as an association list; assignment
`this.xPathParseCache[key] = value` replaces any previous binding. -/
def cacheInsert (cache : List (String × SemVal)) (key : String) (value : SemVal) :
    List (String × SemVal) :=
  (key, value) :: cache.filter (fun kv => kv.1 ≠ key)

/-- The axis-override block at the end of `xPathParse`: when an `axis`
argument is given, the result is a non-absolute location whose steps are
present, and the original expression does not start with `*`, the first
step's axis is overwritten in place. -/
def applyAxisOverride (result : SemVal) (originalExpression : String)
    (axis : Option String) : SemVal :=
  match axis with
  | none => result
  | some a =>
    match result with
    | SemVal.location false (SemVal.step _ nodeTest predicates :: rest) =>
      if strStartsWith originalExpression "*" then
        result
      else
        SemVal.location false (SemVal.step a nodeTest predicates :: rest)
    | _ => result

/-- `xPathParse` of class `XPath`.  The cache lookup is commented out in the
source ("Removing the cache for now"), so no lookup is modelled; cache
WRITES are.  Fast paths: `/^(\$|@)?\w+$/i` via `makeSimpleExpr` and
`/^\w+(\/\w+)*$/i` via `makeSimpleExpr2`, both cached under the expression
text.  Otherwise the shift/reduce loop runs; a final stack of exactly one
frame yields its expression (after the axis override), cached under the
original expression text; any other stack length throws
`XPath parse error <expr>:\n<stack dump>`.  The result pairs the outcome
with the updated cache; `none` = loop fuel exhausted. -/
def xPathParse (tags : LexTags) (tbl : List TokenRule) (rules : List GrammarRule)
    (fuel : Nat) (cache : List (String × SemVal)) (expression : String)
    (axis : Option String) :
    Option (Except String SemVal × List (String × SemVal)) :=
  if xPathSimpleRegex expression then
    let ret := makeSimpleExpr expression axis
    some (Except.ok ret, cacheInsert cache expression ret)
  else if xPathSimple2Regex expression then
    let ret := makeSimpleExpr2 expression
    some (Except.ok ret, cacheInsert cache expression ret)
  else
    match xPathParseLoop tags tbl rules fuel expression [] none with
    | none => none
    | some stack =>
      match stack with
      | [frame] =>
        let result := applyAxisOverride frame.expr expression axis
        some (Except.ok result, cacheInsert cache expression result)
      | _ =>
        some (Except.error ("XPath parse error " ++ expression ++ ":\n" ++ stackToString stack),
              cache)

/-! ### Sorting utility (`xPathSort`, `xPathSortByKey`)

The sort-key values the source produces are JS strings (`stringValue()`,
for `type === 'text'`) or JS numbers (`numberValue()`, for
`type === 'number'`), plus the appended original index.  `KV` models such a
value; JS `>` / `<` compare strings as strings and numbers as numbers. -/

inductive KV where
  | str (s : String)
  | num (n : Int)
deriving DecidableEq

/-- JS `v1.value > v2.value` on sort-key values. -/
def kvGt : KV → KV → Bool
  | KV.str a, KV.str b => strLtB b a
  | KV.num a, KV.num b => decide (b < a)
  | _, _ => false

/-- JS `v1.value < v2.value` on sort-key values. -/
def kvLt : KV → KV → Bool
  | KV.str a, KV.str b => strLtB a b
  | KV.num a, KV.num b => decide (a < b)
  | _, _ => false

/-- One sort criterion `{expr, type, order}`: `expr.evaluate(clonedContext)`
followed by the `type`-directed coercion is abstracted into an evaluation
function of the node; `order` is the order string the source compares with
`'descending'`. -/
inductive SortKeyEval (Node : Type) where
  | text (eval : Node → String)
  | num (eval : Node → Int)

structure SortSpec (Node : Type) where
  keyEval : SortKeyEval Node
  order : String

def sortKeyValue {Node : Type} : SortKeyEval Node → Node → KV
  | SortKeyEval.text f, n => KV.str (f n)
  | SortKeyEval.num f, n => KV.num (f n)

/-- One entry of `sortList`: the node, its original index `i` in
`context.nodeList`, and the key vector (the user keys followed by the
appended `{value: i, order: 'ascending'}` entry). -/
structure SortItem (Node : Type) where
  node : Node
  idx : Nat
  key : List (KV × String)

/-- The `sortList` construction loop of `xPathSort`. -/
def buildSortItems {Node : Type} (nodeList : List Node) (sort : List (SortSpec Node)) :
    List (SortItem Node) :=
  nodeList.enum.map (fun p =>
    { node := p.2, idx := p.1,
      key := sort.map (fun s => (sortKeyValue s.keyEval p.2, s.order)) ++
              [(KV.num p.1, "ascending")] })

/-- The comparison loop of `xPathSortByKey` over the two key vectors
(the order factor `o` comes from the first vector's entry). -/
def sortKeysCompare : List (KV × String) → List (KV × String) → Int
  | (k1, o1) :: t1, (k2, _) :: t2 =>
    let o : Int := if o1 = "descending" then -1 else 1
    if kvGt k1 k2 then o else if kvLt k1 k2 then -o else sortKeysCompare t1 t2
  | _, _ => 0

/-- `xPathSortByKey` of class `XPath`. -/
def xPathSortByKey {Node : Type} (v1 v2 : SortItem Node) : Int :=
  sortKeysCompare v1.key v2.key

/-- Stable insertion into a sorted list (model of the stable
`Array.prototype.sort`): `x` goes before the first element it does not
compare greater than. -/
def sortInsert {α : Type} (cmp : α → α → Int) (x : α) : List α → List α
  | [] => [x]
  | y :: t => if cmp x y ≤ 0 then x :: y :: t else y :: sortInsert cmp x t

/-- Model of the stable JS `sortList.sort(this.xPathSortByKey)`. -/
def stableSort {α : Type} (cmp : α → α → Int) : List α → List α
  | [] => []
  | x :: t => sortInsert cmp x (stableSort cmp t)

/-- The sorted `sortList` of `xPathSort`. -/
def xPathSortItems {Node : Type} (nodeList : List Node) (sort : List (SortSpec Node)) :
    List (SortItem Node) :=
  stableSort xPathSortByKey (buildSortItems nodeList sort)

/-- `xPathSort` of class `XPath`, as the node-list transformation it applies
to `context.nodeList` (an empty criteria list returns immediately; the
source's `siblingPosition` renumbering and `context.setNode(0)` are not
needed by the ordering claims). -/
def xPathSort {Node : Type} (nodeList : List Node) (sort : List (SortSpec Node)) :
    List Node :=
  if sort.isEmpty then
    nodeList
  else
    (xPathSortItems nodeList sort).map (fun item => item.node)

/-! ### The step engine (`xPathStep`)

`StepExpr` and its `evaluate` live in `src/xpath/expressions/step-expr.ts`,
which is not among the provided sources.  A step is therefore modelled from
the spec (§4.I): `axisNodes` is the axis enumeration filtered by the node
test, in axis direction order, and `predicate` is the list of predicate
expressions, each abstracted into its boolean value
`s.predicate[j].evaluate(context.clone(nodeList, undefined, i, undefined)).booleanValue()`
as a function of the context node list and index. -/

structure StepM (Node : Type) where
  hasPositionalPredicate : Bool
  axisNodes : Node → List Node
  predicate : List (List Node → Nat → Bool)

/-- Modelled from the spec: the predicate-application loop of
`StepExpr.evaluate` (not under `src/`): keep the candidates at positions
where the predicate holds; positions are taken over the current list
(§4.I).  `full` is the context node list, iterated with its index. -/
def filterOnceGo {Node : Type} (p : List Node → Nat → Bool) (full : List Node) :
    Nat → List Node → List Node
  | _, [] => []
  | i, n :: rem =>
    if p full i then
      n :: filterOnceGo p full (i + 1) rem
    else
      filterOnceGo p full (i + 1) rem

def filterOnce {Node : Type} (p : List Node → Nat → Bool) (l : List Node) : List Node :=
  filterOnceGo p l 0 l

/-- Modelled from the spec: successive predicate application with position
renumbering over survivors (§4.I "Subsequent predicates re-number positions
over surviving candidates"). -/
def predicateFilter {Node : Type} (preds : List (List Node → Nat → Bool))
    (l : List Node) : List Node :=
  preds.foldl (fun acc p => filterOnce p acc) l

/-- Modelled from the spec: `StepExpr.evaluate` (not under `src/`).  Per the
comments in `xPathStep`, when the context's `returnOnFirstMatch` is set the
predicates are NOT processed by `evaluate` (they are processed by
`xPathStep` itself); otherwise they are applied with positional
semantics. -/
def stepEvaluate {Node : Type} (s : StepM Node) (input : Node)
    (returnOnFirstMatch : Bool) : List Node :=
  if returnOnFirstMatch then
    s.axisNodes input
  else
    predicateFilter s.predicate (s.axisNodes input)

/-- The `nodeListLoop` of the optimized branch of `xPathStep`: iterate the
candidates with their index, skip a candidate failing any predicate
(evaluated against the full candidate list and the index), otherwise push
(last step) or recurse, and break out as soon as the accumulated `nodes`
is non-empty. -/
def xPathStepOptLoop {Node : Type} (preds : List (List Node → Nat → Bool))
    (nodeList : List Node) (recurse : List Node → Node → List Node) :
    List Node → Nat → List Node → List Node
  | nodes, _, [] => nodes
  | nodes, i, n :: rem =>
    if preds.all (fun p => p nodeList i) then
      let nodes' := recurse nodes n
      if nodes'.length > 0 then
        nodes'
      else
        xPathStepOptLoop preds nodeList recurse nodes' (i + 1) rem
    else
      xPathStepOptLoop preds nodeList recurse nodes (i + 1) rem

/-- The plain loop of the unoptimized branch of `xPathStep`: push (last
step) or recurse for every candidate. -/
def xPathStepPlainLoop {Node : Type} (recurse : List Node → Node → List Node) :
    List Node → List Node → List Node
  | nodes, [] => nodes
  | nodes, n :: rem => xPathStepPlainLoop recurse (recurse nodes n) rem

/-- `xPathStep` of class `XPath`, recursing over the step list (the source
indexes `steps[step]`; here the remaining suffix is passed, and the source's
push of the node at the last step — `step == steps.length - 1` — is encoded
by the empty-suffix case appending the input node).  `rofm` is
`context.returnOnFirstMatch`.  In the optimized branch (`rofm` set and the
step not positional) the step is evaluated with `returnOnFirstMatch` kept,
skipping predicates, which are then checked in the loop with a depth-first
early return; otherwise the step is evaluated on a clone with
`returnOnFirstMatch = false` (predicates applied inside `evaluate`) and
every candidate is processed, the ORIGINAL context (with its `rofm`)
being passed down the recursion. -/
def xPathStep {Node : Type} : List (StepM Node) → List Node → Node → Bool → List Node
  | [], nodes, input, _ => nodes ++ [input]
  | s :: rest, nodes, input, rofm =>
    if rofm && !s.hasPositionalPredicate then
      let nodeList := stepEvaluate s input true
      xPathStepOptLoop s.predicate nodeList (fun acc n => xPathStep rest acc n rofm) nodes 0 nodeList
    else
      xPathStepPlainLoop (fun acc n => xPathStep rest acc n rofm) nodes (stepEvaluate s input false)

/-! ### `xmlParse` version dispatch (`src/dom/functions.ts`)

The VersionInfo regular expressions live in `src/dom/xmltoken.ts`, which is
not among the provided sources; `search10`/`search11` model
`xml.search(new RegExp(XML10_VERSION_INFO))` and the XML 1.1 counterpart as
functions returning the index of the first match (`none` when there is no
match, where the source's `search` returns `-1`). -/

inductive XmlGrammar where
  | xml10
  | xml11
deriving DecidableEq, Repr

/-- The grammar-selection prologue of `xmlParse` (`functions.ts`, lines
88-110): a document starting with `<?xml` must have an XML 1.0 or XML 1.1
VersionInfo whose first match is at offset 5, selecting the corresponding
tag-name/attribute regexes, else the error is thrown; any other document
uses the XML 1.0 regexes. -/
def xmlParseGrammarChoice (search10 search11 : String → Option Nat)
    (xml : String) : Except String XmlGrammar :=
  if strStartsWith xml "<?xml" then
    if search10 xml = some 5 then
      Except.ok XmlGrammar.xml10
    else if search11 xml = some 5 then
      Except.ok XmlGrammar.xml11
    else
      Except.error "VersionInfo is missing, or unknown version number."
  else
    Except.ok XmlGrammar.xml10


/-! ## Theorems -/

/-- The shift/reduce decision as a proposition. -/
theorem reduceDecision_iff (c : Candidate) (ahead : Option Frame) :
    reduceDecision c ahead = true ↔
      (ahead = none ∨ ∃ a, ahead = some a ∧
        (c.prec > a.prec ∨ (a.tag.left = true ∧ c.prec ≥ a.prec))) := by
  cases ahead with
  | none => simp [reduceDecision]
  | some a => simp [reduceDecision]

/-- C2: In `xPathReduce`, a reduction is performed if and only if a matching
grammar-rule candidate exists on the stack and either there is no lookahead
token, or the candidate's precedence is strictly greater than the
lookahead's, or the lookahead token is left-associative and the candidate's
precedence is at least the lookahead's; otherwise the lookahead (when
present) is shifted onto the stack. -/
theorem xPathReduce_shift_reduce_discipline (rules : List GrammarRule)
    (stack : List Frame) (ahead : Option Frame) :
    ((xPathReduce rules stack ahead).1 = true ↔
      ∃ c, xPathReduceCandidate rules stack = some c ∧
        (ahead = none ∨ ∃ a, ahead = some a ∧
          (c.prec > a.prec ∨ (a.tag.left = true ∧ c.prec ≥ a.prec)))) ∧
    ((xPathReduce rules stack ahead).1 = false →
      (xPathReduce rules stack ahead).2 =
        match ahead with
        | some a => a :: stack
        | none => stack) := by
  cases hc : xPathReduceCandidate rules stack with
  | none =>
    simp only [xPathReduce, hc]
    refine ⟨⟨fun h => by simp at h, ?_⟩, fun _ => trivial⟩
    rintro ⟨c, hc', -⟩
    cases hc'
  | some c =>
    by_cases hd : reduceDecision c ahead = true
    · simp only [xPathReduce, hc, hd, if_true]
      refine ⟨⟨fun _ => ⟨c, rfl, (reduceDecision_iff c ahead).mp hd⟩, fun _ => trivial⟩, ?_⟩
      intro hfalse
      simp at hfalse
    · simp only [xPathReduce, hc, if_neg hd]
      refine ⟨⟨fun h => by simp at h, ?_⟩, fun _ => trivial⟩
      rintro ⟨c', hc', hcond⟩
      cases hc'
      exact (hd ((reduceDecision_iff c ahead).mpr hcond)).elim

/-- C2 witness: with an empty rule table and an empty stack there is no
candidate, so the lookahead is shifted. -/
theorem xPathReduce_shift_reduce_discipline_witness :
    (xPathReduce [] [] (some ⟨⟨1, "x", 0, false⟩, 0, SemVal.token "x"⟩)).2 =
      [⟨⟨1, "x", 0, false⟩, 0, SemVal.token "x"⟩] :=
  (xPathReduce_shift_reduce_discipline [] [] (some ⟨⟨1, "x", 0, false⟩, 0, SemVal.token "x"⟩)).2
    (by rfl)

/-- C3: a token lexed as one of the operator keywords `div`, `mod`, `and`,
`or` is demoted to a QName (name) token if and only if there is no
previously emitted token or the previous token is one of `@`, `//`, `/`,
`::`, `$`. -/
theorem findXPathRuleForExpression_demotion (tags : LexTags) (tbl : List TokenRule)
    (expression : String) (previous : Option Frame) (r : Tag) (m : String)
    (hlex : lexFirstMatch tbl expression = some (r, m))
    (hkw : r = tags.tokDiv ∨ r = tags.tokMod ∨ r = tags.tokAnd ∨ r = tags.tokOr)
    (hne : r ≠ tags.tokQName) :
    (findXPathRuleForExpression tags tbl expression previous = some (tags.tokQName, m) ↔
      (previous = none ∨ ∃ p, previous = some p ∧
        (p.tag = tags.tokAt ∨ p.tag = tags.tokDSlash ∨ p.tag = tags.tokSlash ∨
         p.tag = tags.tokAxis ∨ p.tag = tags.tokDollar))) := by
  have hkwb : (decide (r = tags.tokDiv) || decide (r = tags.tokMod) ||
      decide (r = tags.tokAnd) || decide (r = tags.tokOr)) = true := by
    simp only [Bool.or_eq_true, decide_eq_true_eq]
    tauto
  have hprev : previousAllowsDemotion tags previous = true ↔
      (previous = none ∨ ∃ p, previous = some p ∧
        (p.tag = tags.tokAt ∨ p.tag = tags.tokDSlash ∨ p.tag = tags.tokSlash ∨
         p.tag = tags.tokAxis ∨ p.tag = tags.tokDollar)) := by
    cases previous with
    | none => simp [previousAllowsDemotion]
    | some p => simp [previousAllowsDemotion, or_assoc]
  by_cases hp : previousAllowsDemotion tags previous = true
  · simp only [findXPathRuleForExpression, hlex, hkwb, hp, Bool.and_self, if_true,
      Bool.true_and]
    exact ⟨fun _ => hprev.mp hp, fun _ => trivial⟩
  · have hpf : previousAllowsDemotion tags previous = false := by
      revert hp
      cases previousAllowsDemotion tags previous <;> simp
    simp only [findXPathRuleForExpression, hlex, hkwb, hpf, Bool.and_false, Bool.true_and,
      Bool.false_eq_true, if_false]
    constructor
    · intro h
      have := (Prod.mk.injEq _ _ _ _).mp (Option.some.inj h)
      exact (hne this.1).elim
    · intro hcond
      exact absurd (hprev.mpr hcond) hp

/-- C3 witness: lexing `div` with no previous token through a one-rule table
demotes to the QName tag. -/
theorem findXPathRuleForExpression_demotion_witness :
    findXPathRuleForExpression
      ⟨⟨1, "div", 0, false⟩, ⟨2, "mod", 0, false⟩, ⟨3, "and", 0, false⟩, ⟨4, "or", 0, false⟩,
       ⟨5, "qname", 0, false⟩, ⟨6, "@", 0, false⟩, ⟨7, "//", 0, false⟩, ⟨8, "/", 0, false⟩,
       ⟨9, "::", 0, false⟩, ⟨10, "$", 0, false⟩⟩
      [⟨⟨1, "div", 0, false⟩, fun s => if strStartsWith s "div" then some "div" else none⟩]
      "div" none = some (⟨5, "qname", 0, false⟩, "div") :=
  (findXPathRuleForExpression_demotion _ _ "div" none ⟨1, "div", 0, false⟩ "div"
      (by decide) (Or.inl rfl) (by decide)).mpr (Or.inl rfl)

/-- A two-rule token table on which the first rule matches a strictly
shorter prefix than the second. -/
def lexShortRule : TokenRule :=
  ⟨⟨1, "short", 0, false⟩, fun s => if strStartsWith s "a" then some "a" else none⟩

def lexLongRule : TokenRule :=
  ⟨⟨2, "long", 0, false⟩, fun s => if strStartsWith s "ab" then some "ab" else none⟩

/-- C7 counterexample: the lexer loop of `findXPathRuleForExpression` takes
the FIRST rule of the table with a non-empty match, not the rule achieving
the longest match: on input `ab` it selects the first rule's one-character
match even though the second rule matches two characters. -/
theorem lexFirstMatch_longest_counterexample :
    lexFirstMatch [lexShortRule, lexLongRule] "ab" = some (⟨1, "short", 0, false⟩, "a") ∧
    lexLongRule ∈ [lexShortRule, lexLongRule] ∧
    lexLongRule.re "ab" = some "ab" ∧
    strLen "a" < strLen "ab" := by
  refine ⟨by decide, ?_, by decide, by decide⟩
  simp

/-- C7 amended: the lexer returns the match of the FIRST rule in the
priority-ordered table whose anchored regular expression yields a non-empty
match on the remaining input; every earlier rule failed to match or matched
the empty string.  Match lengths of later rules are never compared. -/
theorem lexFirstMatch_first_nonempty (tbl : List TokenRule) (s : String)
    (r : Tag) (m : String) (h : lexFirstMatch tbl s = some (r, m)) :
    ∃ tbl1 rule tbl2, tbl = tbl1 ++ rule :: tbl2 ∧ rule.tag = r ∧ rule.re s = some m ∧
      0 < strLen m ∧
      ∀ rule' ∈ tbl1, ∀ m', rule'.re s = some m' → strLen m' = 0 := by
  induction tbl with
  | nil => cases h
  | cons hd tl ih =>
    cases hre : hd.re s with
    | some m0 =>
      simp only [lexFirstMatch, hre] at h
      by_cases hlen : strLen m0 > 0
      · rw [if_pos hlen] at h
        obtain ⟨h1, h2⟩ := (Prod.mk.injEq _ _ _ _).mp (Option.some.inj h)
        exact ⟨[], hd, tl, rfl, h1, h2 ▸ hre, h2 ▸ hlen, by simp⟩
      · rw [if_neg hlen] at h
        obtain ⟨tbl1, rule, tbl2, he, h1, h2, h3, h4⟩ := ih h
        refine ⟨hd :: tbl1, rule, tbl2, by rw [he]; rfl, h1, h2, h3, ?_⟩
        intro rule' hmem m' hm'
        rcases List.mem_cons.mp hmem with hq | hq
        · subst hq
          rw [hre] at hm'
          cases Option.some.inj hm'
          omega
        · exact h4 rule' hq m' hm'
    | none =>
      simp only [lexFirstMatch, hre] at h
      obtain ⟨tbl1, rule, tbl2, he, h1, h2, h3, h4⟩ := ih h
      refine ⟨hd :: tbl1, rule, tbl2, by rw [he]; rfl, h1, h2, h3, ?_⟩
      intro rule' hmem m' hm'
      rcases List.mem_cons.mp hmem with hq | hq
      · subst hq
        rw [hre] at hm'
        cases hm'
      · exact h4 rule' hq m' hm'

/-- C7 amended witness: applying the characterization to the counterexample
table. -/
theorem lexFirstMatch_first_nonempty_witness :
    ∃ tbl1 rule tbl2,
      [lexShortRule, lexLongRule] = tbl1 ++ rule :: tbl2 ∧
      rule.tag = ⟨1, "short", 0, false⟩ ∧ rule.re "ab" = some "a" ∧ 0 < strLen "a" ∧
      ∀ rule' ∈ tbl1, ∀ m', rule'.re "ab" = some m' → strLen m' = 0 :=
  lexFirstMatch_first_nonempty [lexShortRule, lexLongRule] "ab" ⟨1, "short", 0, false⟩ "a"
    (by decide)

/-- C10: the version-dispatch prologue of `xmlParse` throws the Error
`VersionInfo is missing, or unknown version number.` exactly when the input
begins with `<?xml` but neither the XML 1.0 nor the XML 1.1 VersionInfo
pattern first matches at offset 5; an input not beginning with `<?xml` is
parsed with the XML 1.0 grammar and no such error is raised. -/
theorem xmlParse_versionInfo_error (search10 search11 : String → Option Nat)
    (xml : String) :
    ((∃ e, xmlParseGrammarChoice search10 search11 xml = Except.error e) ↔
      (strStartsWith xml "<?xml" = true ∧ search10 xml ≠ some 5 ∧ search11 xml ≠ some 5)) ∧
    (∀ e, xmlParseGrammarChoice search10 search11 xml = Except.error e →
      e = "VersionInfo is missing, or unknown version number.") ∧
    (strStartsWith xml "<?xml" = false →
      xmlParseGrammarChoice search10 search11 xml = Except.ok XmlGrammar.xml10) := by
  unfold xmlParseGrammarChoice
  by_cases h0 : strStartsWith xml "<?xml" = true
  · rw [if_pos h0]
    by_cases h1 : search10 xml = some 5
    · rw [if_pos h1]
      refine ⟨⟨?_, ?_⟩, ?_, ?_⟩
      · rintro ⟨e, he⟩; cases he
      · rintro ⟨-, hn, -⟩; exact absurd h1 hn
      · intro e he; cases he
      · intro hf; simp [hf] at h0
    · rw [if_neg h1]
      by_cases h2 : search11 xml = some 5
      · rw [if_pos h2]
        refine ⟨⟨?_, ?_⟩, ?_, ?_⟩
        · rintro ⟨e, he⟩; cases he
        · rintro ⟨-, -, hn⟩; exact absurd h2 hn
        · intro e he; cases he
        · intro hf; simp [hf] at h0
      · rw [if_neg h2]
        refine ⟨⟨?_, ?_⟩, ?_, ?_⟩
        · intro _; exact ⟨h0, h1, h2⟩
        · intro _; exact ⟨_, rfl⟩
        · intro e he; exact (Except.error.inj he).symm
        · intro hf; simp [hf] at h0
  · rw [if_neg h0]
    refine ⟨⟨?_, ?_⟩, ?_, ?_⟩
    · rintro ⟨e, he⟩; cases he
    · rintro ⟨hh, -, -⟩; exact absurd hh h0
    · intro e he; cases he
    · intro _; rfl

/-- C10 witness: a document starting `<?xml` on which neither VersionInfo
search first matches at offset 5 raises exactly the documented error. -/
theorem xmlParse_versionInfo_error_witness :
    xmlParseGrammarChoice (fun _ => none) (fun _ => none) "<?xmlv" =
      Except.error "VersionInfo is missing, or unknown version number." := by
  have h := (xmlParse_versionInfo_error (fun _ => none) (fun _ => none) "<?xmlv").1.mpr
    ⟨by decide, by simp, by simp⟩
  obtain ⟨e, he⟩ := h
  have := (xmlParse_versionInfo_error (fun _ => none) (fun _ => none) "<?xmlv").2.1 e he
  rw [he, this]

/-- Placeholder tag/table values for statements in which the parser tables
are irrelevant (the fast paths never consult them). -/
def tagW : Tag := ⟨0, "", 0, false⟩

def lexTagsW : LexTags := ⟨tagW, tagW, tagW, tagW, tagW, tagW, tagW, tagW, tagW, tagW⟩

/-- Is a semantic value a `LocationExpr`? -/
def isLocationExpr : SemVal → Bool
  | SemVal.location _ _ => true
  | _ => false

/-- Is a semantic value a step with a plain name test and no predicates? -/
def isPlainNameTestStep : SemVal → Bool
  | SemVal.step _ (SemVal.nodeTestName _) [] => true
  | _ => false

/-- The shapes the fast paths actually produce: a location consisting of
plain name-test steps, a variable reference, or a number. -/
def simpleFastPathShape : SemVal → Bool
  | SemVal.location _ steps => steps.all isPlainNameTestStep
  | SemVal.varRef _ => true
  | SemVal.numberExpr _ => true
  | _ => false

/-- C6 counterexample: the input `4` is accepted by the first fast-path
pattern (`^(\$|@)?\w+$` matches a pure integer), but `xPathParse` returns a
`NumberExpr`, not a Location expression of name-test steps. -/
theorem xPathParse_fastPath_number_counterexample :
    xPathSimpleRegex "4" = true ∧
    xPathParse lexTagsW [] [] 0 [] "4" none =
      some (Except.ok (SemVal.numberExpr "4"), [("4", SemVal.numberExpr "4")]) ∧
    isLocationExpr (SemVal.numberExpr "4") = false :=
  ⟨by decide, rfl, rfl⟩

/-- `makeSimpleExpr` always yields one of the fast-path shapes. -/
theorem makeSimpleExpr_shape (expression : String) (axis : Option String) :
    simpleFastPathShape (makeSimpleExpr expression axis) = true := by
  unfold makeSimpleExpr
  split
  · rfl
  · split
    · rfl
    · split
      · rfl
      · rfl

/-- `makeSimpleExpr2` always yields a location of plain name-test steps. -/
theorem makeSimpleExpr2_shape (expr : String) :
    simpleFastPathShape (makeSimpleExpr2 expr) = true := by
  unfold makeSimpleExpr2 simpleFastPathShape
  rw [List.all_eq_true]
  intro x hx
  obtain ⟨s, -, hs⟩ := List.mem_map.mp hx
  rw [← hs]
  rfl

/-- C6 amended: an input accepted by a fast-path pattern bypasses the
shift/reduce parser (the result does not depend on the token table, the
grammar rules or the loop fuel): bare names, attributes and `/`-chains of
simple names yield a Location of plain name-test steps, while variable
references yield a `VariableExpr` and pure integers yield a `NumberExpr`;
the result is cached under the expression text. -/
theorem xPathParse_fastPath_bypass (tags : LexTags) (tbl : List TokenRule)
    (rules : List GrammarRule) (fuel : Nat) (cache : List (String × SemVal))
    (expression : String) (axis : Option String)
    (h : xPathSimpleRegex expression = true ∨ xPathSimple2Regex expression = true) :
    ∃ e, xPathParse tags tbl rules fuel cache expression axis =
        some (Except.ok e, cacheInsert cache expression e) ∧
      e = (if xPathSimpleRegex expression then makeSimpleExpr expression axis
           else makeSimpleExpr2 expression) ∧
      simpleFastPathShape e = true := by
  by_cases h1 : xPathSimpleRegex expression = true
  · refine ⟨makeSimpleExpr expression axis, ?_, ?_, makeSimpleExpr_shape expression axis⟩
    · simp only [xPathParse, h1, if_true]
    · rw [if_pos h1]
  · have h2 : xPathSimple2Regex expression = true := by tauto
    refine ⟨makeSimpleExpr2 expression, ?_, ?_, makeSimpleExpr2_shape expression⟩
    · simp only [xPathParse, h1, h2, if_true, if_false, Bool.false_eq_true]
    · rw [if_neg h1]

/-- C6 amended witness: the chain `a/b` takes the second fast path and
yields a two-step location of name tests. -/
theorem xPathParse_fastPath_bypass_witness :
    ∃ e, xPathParse lexTagsW [] [] 0 [] "a/b" none =
        some (Except.ok e, cacheInsert [] "a/b" e) ∧
      e = (if xPathSimpleRegex "a/b" then makeSimpleExpr "a/b" none
           else makeSimpleExpr2 "a/b") ∧
      simpleFastPathShape e = true :=
  xPathParse_fastPath_bypass lexTagsW [] [] 0 [] "a/b" none (Or.inr (by decide))

/-- C8: if `xPathParse` throws a parse error the cache is exactly as before
the call, and on success the resulting expression is stored under the
original source text of the expression. -/
theorem xPathParse_cache_writes_only_on_success (tags : LexTags) (tbl : List TokenRule)
    (rules : List GrammarRule) (fuel : Nat) (cache : List (String × SemVal))
    (expression : String) (axis : Option String)
    (res : Except String SemVal) (cache' : List (String × SemVal))
    (h : xPathParse tags tbl rules fuel cache expression axis = some (res, cache')) :
    (∀ msg, res = Except.error msg → cache' = cache) ∧
    (∀ e, res = Except.ok e → cache' = cacheInsert cache expression e) := by
  unfold xPathParse at h
  by_cases h1 : xPathSimpleRegex expression = true
  · rw [if_pos h1] at h
    obtain ⟨hres, hcache⟩ := (Prod.mk.injEq _ _ _ _).mp (Option.some.inj h)
    constructor
    · intro msg hmsg; rw [← hres] at hmsg; cases hmsg
    · intro e he
      rw [← hres] at he
      cases he
      exact hcache.symm
  · rw [if_neg h1] at h
    by_cases h2 : xPathSimple2Regex expression = true
    · rw [if_pos h2] at h
      obtain ⟨hres, hcache⟩ := (Prod.mk.injEq _ _ _ _).mp (Option.some.inj h)
      constructor
      · intro msg hmsg; rw [← hres] at hmsg; cases hmsg
      · intro e he
        rw [← hres] at he
        cases he
        exact hcache.symm
    · rw [if_neg h2] at h
      cases hloop : xPathParseLoop tags tbl rules fuel expression [] none with
      | none => rw [hloop] at h; cases h
      | some stack =>
        rw [hloop] at h
        match stack, h with
        | [frame], h =>
          obtain ⟨hres, hcache⟩ := (Prod.mk.injEq _ _ _ _).mp (Option.some.inj h)
          constructor
          · intro msg hmsg; rw [← hres] at hmsg; cases hmsg
          · intro e he
            rw [← hres] at he
            cases he
            exact hcache.symm
        | [], h =>
          obtain ⟨hres, hcache⟩ := (Prod.mk.injEq _ _ _ _).mp (Option.some.inj h)
          constructor
          · intro msg hmsg; exact hcache.symm
          · intro e he; rw [← hres] at he; cases he
        | f1 :: f2 :: fs, h =>
          obtain ⟨hres, hcache⟩ := (Prod.mk.injEq _ _ _ _).mp (Option.some.inj h)
          constructor
          · intro msg hmsg; exact hcache.symm
          · intro e he; rw [← hres] at he; cases he

/-- C8 witness: a failing parse (no token rules, input `(`) leaves the
cache untouched. -/
theorem xPathParse_cache_writes_only_on_success_witness :
    ([("k", SemVal.token "v")] : List (String × SemVal)) = [("k", SemVal.token "v")] :=
  (xPathParse_cache_writes_only_on_success lexTagsW [] [] 3 [("k", SemVal.token "v")] "(" none
      (Except.error "XPath parse error (:\n") [("k", SemVal.token "v")] rfl).1
    "XPath parse error (:\n" rfl

/-- C1: for an expression not handled by a fast path, `xPathParse` (when its
loop terminates within the given fuel) either returns the expression of the
single remaining stack frame (with the axis override applied and the result
cached), or, when the residual stack does not contain exactly one frame,
throws exactly `XPath parse error ` ++ expression ++ `:\n` ++ the residual
frames' tag labels joined by newlines — and in that case no result is
returned and the cache is unchanged. -/
theorem xPathParse_nonFastPath_result (tags : LexTags) (tbl : List TokenRule)
    (rules : List GrammarRule) (fuel : Nat) (cache : List (String × SemVal))
    (expression : String) (axis : Option String)
    (r : Except String SemVal × List (String × SemVal))
    (h1 : xPathSimpleRegex expression = false)
    (h2 : xPathSimple2Regex expression = false)
    (h : xPathParse tags tbl rules fuel cache expression axis = some r) :
    ∃ stack, xPathParseLoop tags tbl rules fuel expression [] none = some stack ∧
      ((∃ frame, stack = [frame] ∧
          r = (Except.ok (applyAxisOverride frame.expr expression axis),
               cacheInsert cache expression (applyAxisOverride frame.expr expression axis))) ∨
       (stack.length ≠ 1 ∧
        r = (Except.error ("XPath parse error " ++ expression ++ ":\n" ++ stackToString stack),
             cache))) := by
  unfold xPathParse at h
  rw [if_neg (by rw [h1]; exact Bool.false_ne_true), if_neg (by rw [h2]; exact Bool.false_ne_true)] at h
  cases hloop : xPathParseLoop tags tbl rules fuel expression [] none with
  | none => rw [hloop] at h; cases h
  | some stack =>
    rw [hloop] at h
    refine ⟨stack, rfl, ?_⟩
    match stack, h with
    | [frame], h =>
      exact Or.inl ⟨frame, rfl, (Option.some.inj h).symm⟩
    | [], h =>
      exact Or.inr ⟨by simp, (Option.some.inj h).symm⟩
    | f1 :: f2 :: fs, h =>
      exact Or.inr ⟨by simp, (Option.some.inj h).symm⟩

/-- C1 witness: with an empty token table the expression `(` lexes no token,
the stack stays empty, and the parse throws `XPath parse error (:\n` with
an empty stack dump, leaving the cache unchanged. -/
theorem xPathParse_nonFastPath_result_witness :
    ∃ stack, xPathParseLoop lexTagsW [] [] 3 "(" [] none = some stack ∧
      ((∃ frame, stack = [frame] ∧
          ((Except.error "XPath parse error (:\n" : Except String SemVal),
            ([] : List (String × SemVal))) =
            (Except.ok (applyAxisOverride frame.expr "(" none),
             cacheInsert [] "(" (applyAxisOverride frame.expr "(" none))) ∨
       (stack.length ≠ 1 ∧
        ((Except.error "XPath parse error (:\n" : Except String SemVal),
          ([] : List (String × SemVal))) =
          ((Except.error ("XPath parse error " ++ "(" ++ ":\n" ++ stackToString stack) :
              Except String SemVal),
           ([] : List (String × SemVal))))) :=
  xPathParse_nonFastPath_result lexTagsW [] [] 3 [] "(" none
    (Except.error "XPath parse error (:\n", []) (by decide) (by decide) rfl

/-- A two-step path whose first step is positional and whose second is not:
the axis of the first step yields node `1` from node `0`, the axis of the
second yields nodes `2` and `3` from node `1`. -/
def stepPosW : StepM Nat :=
  ⟨true, fun n => if n = 0 then [1] else [], []⟩

def stepPlainW : StepM Nat :=
  ⟨false, fun n => if n = 1 then [2, 3] else [], []⟩

/-- C4 counterexample: with `returnOnFirstMatch` set and a path containing a
positional step, the optimization is NOT disabled for the entire path: the
non-positional second step still takes the depth-first early return, so the
evaluation yields `[2]` instead of the full unoptimized result `[2, 3]`. -/
theorem xPathStep_mixed_positional_counterexample :
    (∃ s ∈ [stepPosW, stepPlainW], s.hasPositionalPredicate = true) ∧
    xPathStep [stepPosW, stepPlainW] [] 0 true = [2] ∧
    xPathStep [stepPosW, stepPlainW] [] 0 false = [2, 3] ∧
    xPathStep [stepPosW, stepPlainW] [] 0 true ≠
      xPathStep [stepPosW, stepPlainW] [] 0 false := by
  refine ⟨⟨stepPosW, by simp, rfl⟩, rfl, rfl, by decide⟩

/-- Pointwise-equal recursion functions give equal plain loops. -/
theorem xPathStepPlainLoop_congr {Node : Type}
    (rec1 rec2 : List Node → Node → List Node)
    (h : ∀ acc n, rec1 acc n = rec2 acc n) :
    ∀ nodeList nodes, xPathStepPlainLoop rec1 nodes nodeList =
      xPathStepPlainLoop rec2 nodes nodeList := by
  intro nodeList
  induction nodeList with
  | nil => intro nodes; rfl
  | cons n rem ih =>
    intro nodes
    show xPathStepPlainLoop rec1 (rec1 nodes n) rem = xPathStepPlainLoop rec2 (rec2 nodes n) rem
    rw [h nodes n]
    exact ih (rec2 nodes n)

/-- C4 amended: the `returnOnFirstMatch` optimization is disabled per step,
exactly for the steps whose `hasPositionalPredicate` flag is set (the
counterexample shows a non-positional step of a mixed path still takes the
early return).  In particular, when EVERY step of the path has a positional
predicate, the whole evaluation coincides with the unoptimized one. -/
theorem xPathStep_allPositional_no_optimization {Node : Type}
    (steps : List (StepM Node))
    (h : ∀ s ∈ steps, s.hasPositionalPredicate = true) :
    ∀ nodes input, xPathStep steps nodes input true = xPathStep steps nodes input false := by
  induction steps with
  | nil => intro nodes input; rfl
  | cons s rest ih =>
    intro nodes input
    have hs : s.hasPositionalPredicate = true := h s (by simp)
    have hrest : ∀ s' ∈ rest, s'.hasPositionalPredicate = true := by
      intro s' hs'
      exact h s' (List.mem_cons_of_mem s hs')
    show xPathStep (s :: rest) nodes input true = xPathStep (s :: rest) nodes input false
    unfold xPathStep
    rw [hs]
    simp only [Bool.not_true, Bool.and_false, Bool.false_and, Bool.false_eq_true, if_false]
    exact xPathStepPlainLoop_congr _ _
      (fun acc n => by
        cases rest with
        | nil => rfl
        | cons r rs => exact ih hrest acc n)
      (stepEvaluate s input false) nodes

/-- C4 amended witness: a single-step all-positional path evaluates
identically with and without the optimization flag. -/
theorem xPathStep_allPositional_no_optimization_witness :
    xPathStep [stepPosW] [] 0 true = xPathStep [stepPosW] [] 0 false :=
  xPathStep_allPositional_no_optimization [stepPosW]
    (by intro s hs; simp at hs; rw [hs]; rfl) [] 0


/-! ### C5: the `returnOnFirstMatch` refinement -/

/-- A predicate whose boolean value depends only on the context node (no
positional dependence): the semantic content of a step with
`hasPositionalPredicate = false`. -/
def NodeOnlyPred {Node : Type} (p : List Node → Nat → Bool) : Prop :=
  ∃ f : Node → Bool, ∀ (l : List Node) (i : Nat) (h : i < l.length), p l i = f (l.get ⟨i, h⟩)

theorem filterOnceGo_nodeOnly {Node : Type} (p : List Node → Nat → Bool)
    (f : Node → Bool)
    (hp : ∀ (l : List Node) (i : Nat) (h : i < l.length), p l i = f (l.get ⟨i, h⟩))
    (full : List Node) :
    ∀ (rem : List Node) (i : Nat), full.drop i = rem →
      filterOnceGo p full i rem = rem.filter f := by
  intro rem
  induction rem with
  | nil => intro i _; rfl
  | cons n rem' ih =>
    intro i hdrop
    have hi : i < full.length := by
      by_contra hcon
      push_neg at hcon
      rw [List.drop_eq_nil_of_le hcon] at hdrop
      cases hdrop
    have hcons := List.drop_eq_getElem_cons hi
    rw [hdrop] at hcons
    have hn : full.get ⟨i, hi⟩ = n := ((List.cons.injEq _ _ _ _).mp hcons.symm).1
    have hdrop' : full.drop (i + 1) = rem' := ((List.cons.injEq _ _ _ _).mp hcons.symm).2
    show (if p full i then n :: filterOnceGo p full (i + 1) rem'
          else filterOnceGo p full (i + 1) rem') = _
    rw [hp full i hi, hn, ih (i + 1) hdrop', List.filter_cons]

theorem filterOnce_nodeOnly {Node : Type} (p : List Node → Nat → Bool)
    (f : Node → Bool)
    (hp : ∀ (l : List Node) (i : Nat) (h : i < l.length), p l i = f (l.get ⟨i, h⟩))
    (l : List Node) : filterOnce p l = l.filter f :=
  filterOnceGo_nodeOnly p f hp l l 0 (List.drop_zero l)

/-- For a list of node-only predicates, the conjunction of the predicates at
any index only depends on the node there, and sequential predicate
application (with renumbering) is a plain filter by that conjunction. -/
theorem predicateFilter_nodeOnly {Node : Type} :
    ∀ (preds : List (List Node → Nat → Bool)),
      (∀ p ∈ preds, NodeOnlyPred p) →
      ∃ g : Node → Bool,
        (∀ (l : List Node) (i : Nat) (h : i < l.length),
            (preds.all fun p => p l i) = g (l.get ⟨i, h⟩)) ∧
        (∀ l, predicateFilter preds l = l.filter g) := by
  intro preds
  induction preds with
  | nil =>
    intro _
    refine ⟨fun _ => true, by intro l i h; rfl, ?_⟩
    intro l
    show l = l.filter fun _ => true
    simp
  | cons p ps ih =>
    intro h
    obtain ⟨f, hf⟩ := h p (by simp)
    obtain ⟨g, hg1, hg2⟩ := ih (fun q hq => h q (List.mem_cons_of_mem _ hq))
    refine ⟨fun n => f n && g n, ?_, ?_⟩
    · intro l i hlt
      rw [List.all_cons, hf l i hlt, hg1 l i hlt]
    · intro l
      show List.foldl (fun acc q => filterOnce q acc) l (p :: ps) = _
      rw [List.foldl_cons]
      have heq : List.foldl (fun acc q => filterOnce q acc) (filterOnce p l) ps =
          predicateFilter ps (filterOnce p l) := rfl
      rw [heq, filterOnce_nodeOnly p f hf l, hg2 (l.filter f), List.filter_filter]
      exact List.filter_congr (fun a _ => by rw [Bool.and_comm])

/-- The first non-empty list among a list of lists (`[]` if all empty). -/
def firstNonempty {α : Type} : List (List α) → List α
  | [] => []
  | [] :: ls => firstNonempty ls
  | (a :: t) :: _ => a :: t

theorem firstNonempty_take_one {α : Type} :
    ∀ ls : List (List α),
      firstNonempty (ls.map (fun l => l.take 1)) = ls.flatten.take 1 := by
  intro ls
  induction ls with
  | nil => rfl
  | cons l ls ih =>
    cases l with
    | nil => simpa using ih
    | cons a t =>
      show firstNonempty ([a] :: ls.map (fun l => l.take 1)) = ((a :: t) ++ ls.flatten).take 1
      rfl

/-- The accumulator of the plain loop distributes over append when the
recursion function does. -/
theorem xPathStepPlainLoop_acc {Node : Type} (recurse : List Node → Node → List Node)
    (h : ∀ acc n, recurse acc n = acc ++ recurse [] n) :
    ∀ (l nodes : List Node),
      xPathStepPlainLoop recurse nodes l = nodes ++ xPathStepPlainLoop recurse [] l := by
  intro l
  induction l with
  | nil => intro nodes; simp [xPathStepPlainLoop]
  | cons n rem ih =>
    intro nodes
    show xPathStepPlainLoop recurse (recurse nodes n) rem =
      nodes ++ xPathStepPlainLoop recurse (recurse [] n) rem
    rw [ih (recurse nodes n), ih (recurse [] n), h nodes n, List.append_assoc]

theorem xPathStepPlainLoop_flat {Node : Type} (recurse : List Node → Node → List Node)
    (h : ∀ acc n, recurse acc n = acc ++ recurse [] n) :
    ∀ l : List Node,
      xPathStepPlainLoop recurse [] l = (l.map (fun n => recurse [] n)).flatten := by
  intro l
  induction l with
  | nil => rfl
  | cons n rem ih =>
    show xPathStepPlainLoop recurse (recurse [] n) rem = _
    rw [xPathStepPlainLoop_acc recurse h rem (recurse [] n), ih]
    rfl

/-- Unfolding of `xPathStep` on a non-positional step with
`returnOnFirstMatch` set: the optimized branch runs on the raw axis
candidates (predicates skipped by `stepEvaluate`). -/
theorem xPathStep_cons_true {Node : Type} (s : StepM Node) (rest : List (StepM Node))
    (nodes : List Node) (input : Node) (hs : s.hasPositionalPredicate = false) :
    xPathStep (s :: rest) nodes input true =
      xPathStepOptLoop s.predicate (s.axisNodes input)
        (fun acc n => xPathStep rest acc n true) nodes 0 (s.axisNodes input) := by
  simp [xPathStep, hs, stepEvaluate]

/-- Unfolding of `xPathStep` with `returnOnFirstMatch` unset: the plain
branch runs on the predicate-filtered candidates. -/
theorem xPathStep_cons_false {Node : Type} (s : StepM Node) (rest : List (StepM Node))
    (nodes : List Node) (input : Node) :
    xPathStep (s :: rest) nodes input false =
      xPathStepPlainLoop (fun acc n => xPathStep rest acc n false) nodes
        (predicateFilter s.predicate (s.axisNodes input)) := by
  simp [xPathStep, stepEvaluate]

/-- With `returnOnFirstMatch` unset, `xPathStep` appends to its accumulator. -/
theorem xPathStep_false_acc {Node : Type} :
    ∀ (steps : List (StepM Node)) (acc : List Node) (input : Node),
      xPathStep steps acc input false = acc ++ xPathStep steps [] input false := by
  intro steps
  induction steps with
  | nil => intro acc input; simp [xPathStep]
  | cons s rest ih =>
    intro acc input
    rw [xPathStep_cons_false, xPathStep_cons_false]
    exact xPathStepPlainLoop_acc _ (fun acc' n => ih acc' n) _ acc

/-- The optimized loop with empty accumulator returns the first non-empty
result of the recursion over the predicate-surviving candidates. -/
theorem xPathStepOptLoop_first {Node : Type} (preds : List (List Node → Nat → Bool))
    (g : Node → Bool) (cands : List Node)
    (hgall : ∀ (i : Nat) (h : i < cands.length),
      (preds.all fun p => p cands i) = g (cands.get ⟨i, h⟩))
    (recurse : List Node → Node → List Node) :
    ∀ (rem : List Node) (i : Nat), cands.drop i = rem →
      xPathStepOptLoop preds cands recurse [] i rem =
        firstNonempty ((rem.filter g).map (fun n => recurse [] n)) := by
  intro rem
  induction rem with
  | nil => intro i _; rfl
  | cons n rem' ih =>
    intro i hdrop
    have hi : i < cands.length := by
      by_contra hcon
      push_neg at hcon
      rw [List.drop_eq_nil_of_le hcon] at hdrop
      cases hdrop
    have hcons := List.drop_eq_getElem_cons hi
    rw [hdrop] at hcons
    have hn : cands.get ⟨i, hi⟩ = n := ((List.cons.injEq _ _ _ _).mp hcons.symm).1
    have hdrop' : cands.drop (i + 1) = rem' := ((List.cons.injEq _ _ _ _).mp hcons.symm).2
    show (if preds.all (fun p => p cands i) then
            let nodes' := recurse [] n
            if nodes'.length > 0 then nodes'
            else xPathStepOptLoop preds cands recurse nodes' (i + 1) rem'
          else xPathStepOptLoop preds cands recurse [] (i + 1) rem') = _
    rw [hgall i hi, hn]
    by_cases hg : g n = true
    · rw [if_pos hg]
      have hfil : List.filter g (n :: rem') = n :: List.filter g rem' := by
        rw [List.filter_cons, if_pos (by simpa using hg)]
      rw [hfil]
      cases hrn : recurse [] n with
      | nil =>
        show (if ([] : List Node).length > 0 then ([] : List Node)
              else xPathStepOptLoop preds cands recurse [] (i + 1) rem') = _
        rw [if_neg (by simp), ih (i + 1) hdrop']
        show _ = firstNonempty (recurse [] n :: (rem'.filter g).map (fun n => recurse [] n))
        rw [hrn]
        rfl
      | cons a t =>
        show (if (a :: t).length > 0 then a :: t
              else xPathStepOptLoop preds cands recurse (a :: t) (i + 1) rem') = _
        rw [if_pos (by simp)]
        show _ = firstNonempty (recurse [] n :: (rem'.filter g).map (fun n => recurse [] n))
        rw [hrn]
        rfl
    · rw [if_neg hg, List.filter_cons, if_neg (by simpa using hg)]
      exact ih (i + 1) hdrop'

/-- C5: with `returnOnFirstMatch` set and no positional predicate on any
step (predicates genuinely depending only on their node), the optimized
depth-first evaluation yields exactly the first node of the node list the
unoptimized evaluation of the same path produces (the list the spec
guarantees to be in document order). -/
theorem xPathStep_returnOnFirstMatch_first_of_full {Node : Type} :
    ∀ (steps : List (StepM Node)) (input : Node),
      (∀ s ∈ steps, s.hasPositionalPredicate = false) →
      (∀ s ∈ steps, ∀ p ∈ s.predicate, NodeOnlyPred p) →
      xPathStep steps [] input true = (xPathStep steps [] input false).take 1 := by
  intro steps
  induction steps with
  | nil => intro input _ _; rfl
  | cons s rest ih =>
    intro input hflag hpred
    obtain ⟨g, hg1, hg2⟩ := predicateFilter_nodeOnly s.predicate (hpred s (by simp))
    have hflags : s.hasPositionalPredicate = false := hflag s (by simp)
    have hrecacc : ∀ (acc : List Node) (n : Node),
        xPathStep rest acc n false = acc ++ xPathStep rest [] n false :=
      fun acc n => xPathStep_false_acc rest acc n
    rw [xPathStep_cons_true s rest [] input hflags,
        xPathStep_cons_false s rest [] input,
        xPathStepOptLoop_first s.predicate g (s.axisNodes input)
          (fun i h => hg1 (s.axisNodes input) i h)
          (fun acc n => xPathStep rest acc n true)
          (s.axisNodes input) 0 (List.drop_zero _),
        hg2 (s.axisNodes input),
        xPathStepPlainLoop_flat (fun acc n => xPathStep rest acc n false) hrecacc,
        ← firstNonempty_take_one, List.map_map]
    congr 1
    refine List.map_congr_left ?_
    intro n _
    show xPathStep rest [] n true = (xPathStep rest [] n false).take 1
    exact ih n (fun s' hs' => hflag s' (List.mem_cons_of_mem _ hs'))
      (fun s' hs' => hpred s' (List.mem_cons_of_mem _ hs'))

/-- C5 witness: a single non-positional step with a node-only predicate,
evaluated from node `0`: the optimized result is the head of the full
result. -/
theorem xPathStep_returnOnFirstMatch_first_of_full_witness :
    xPathStep [⟨false, fun n => if n = 0 then [5, 6, 7] else [],
                 [fun l i => l.getD i 0 ≥ 6]⟩] [] 0 true =
      (xPathStep [⟨false, fun n => if n = 0 then [5, 6, 7] else [],
                   [fun l i => l.getD i 0 ≥ 6]⟩] [] 0 false).take 1 :=
  xPathStep_returnOnFirstMatch_first_of_full
    [⟨false, fun n => if n = 0 then [5, 6, 7] else [], [fun l i => l.getD i 0 ≥ 6]⟩] 0
    (by intro s hs; simp at hs; rw [hs])
    (by
      intro s hs p hp
      simp at hs
      subst hs
      simp at hp
      subst hp
      refine ⟨fun n => decide (n ≥ 6), ?_⟩
      intro l i h
      show decide (6 ≤ l[i]?.getD 0) = decide (l.get ⟨i, h⟩ ≥ 6)
      rw [List.getElem?_eq_getElem h]
      rfl)

/-! ### C9: stability of `xPathSort` -/

theorem listLtB_irrefl : ∀ l : List Char, listLtB l l = false := by
  intro l
  induction l with
  | nil => rfl
  | cons a as ih =>
    show (if a.toNat < a.toNat then true
          else if a.toNat < a.toNat then false else listLtB as as) = false
    rw [if_neg (by omega), if_neg (by omega)]
    exact ih

theorem listLtB_asymm : ∀ l1 l2 : List Char,
    listLtB l1 l2 = true → listLtB l2 l1 = false := by
  intro l1
  induction l1 with
  | nil =>
    intro l2 h
    cases l2 with
    | nil => cases h
    | cons b bs => rfl
  | cons a as ih =>
    intro l2 h
    cases l2 with
    | nil => cases h
    | cons b bs =>
      rw [show listLtB (a :: as) (b :: bs) =
            (if a.toNat < b.toNat then true
             else if b.toNat < a.toNat then false else listLtB as bs) from rfl] at h
      show (if b.toNat < a.toNat then true
            else if a.toNat < b.toNat then false else listLtB bs as) = false
      by_cases hab : a.toNat < b.toNat
      · rw [if_neg (by omega), if_pos hab]
      · rw [if_neg hab] at h
        by_cases hba : b.toNat < a.toNat
        · rw [if_pos hba] at h
          cases h
        · rw [if_neg hba] at h
          rw [if_neg hba, if_neg hab]
          exact ih bs h

theorem listLtB_trans : ∀ l1 l2 l3 : List Char,
    listLtB l1 l2 = true → listLtB l2 l3 = true → listLtB l1 l3 = true := by
  intro l1
  induction l1 with
  | nil =>
    intro l2 l3 h12 h23
    cases l2 with
    | nil => cases h12
    | cons b bs =>
      cases l3 with
      | nil => cases h23
      | cons c cs => rfl
  | cons a as ih =>
    intro l2 l3 h12 h23
    cases l2 with
    | nil => cases h12
    | cons b bs =>
      cases l3 with
      | nil => cases h23
      | cons c cs =>
        rw [show listLtB (a :: as) (b :: bs) =
              (if a.toNat < b.toNat then true
               else if b.toNat < a.toNat then false else listLtB as bs) from rfl] at h12
        rw [show listLtB (b :: bs) (c :: cs) =
              (if b.toNat < c.toNat then true
               else if c.toNat < b.toNat then false else listLtB bs cs) from rfl] at h23
        show (if a.toNat < c.toNat then true
              else if c.toNat < a.toNat then false else listLtB as cs) = true
        by_cases hab : a.toNat < b.toNat
        · by_cases hbc : b.toNat < c.toNat
          · rw [if_pos (by omega)]
          · rw [if_neg hbc] at h23
            by_cases hcb : c.toNat < b.toNat
            · rw [if_pos hcb] at h23; cases h23
            · rw [if_pos (by omega)]
        · rw [if_neg hab] at h12
          by_cases hba : b.toNat < a.toNat
          · rw [if_pos hba] at h12; cases h12
          · rw [if_neg hba] at h12
            by_cases hbc : b.toNat < c.toNat
            · rw [if_pos (by omega)]
            · rw [if_neg hbc] at h23
              by_cases hcb : c.toNat < b.toNat
              · rw [if_pos hcb] at h23; cases h23
              · rw [if_neg hcb] at h23
                rw [if_neg (by omega), if_neg (by omega)]
                exact ih bs cs h12 h23

theorem listLtB_eq_of_not : ∀ l1 l2 : List Char,
    listLtB l1 l2 = false → listLtB l2 l1 = false → l1 = l2 := by
  intro l1
  induction l1 with
  | nil =>
    intro l2 h12 _
    cases l2 with
    | nil => rfl
    | cons b bs => cases h12
  | cons a as ih =>
    intro l2 h12 h21
    cases l2 with
    | nil => cases h21
    | cons b bs =>
      rw [show listLtB (a :: as) (b :: bs) =
            (if a.toNat < b.toNat then true
             else if b.toNat < a.toNat then false else listLtB as bs) from rfl] at h12
      rw [show listLtB (b :: bs) (a :: as) =
            (if b.toNat < a.toNat then true
             else if a.toNat < b.toNat then false else listLtB bs as) from rfl] at h21
      by_cases hab : a.toNat < b.toNat
      · rw [if_pos hab] at h12; cases h12
      · by_cases hba : b.toNat < a.toNat
        · rw [if_pos hba] at h21; cases h21
        · rw [if_neg hab, if_neg hba] at h12
          rw [if_neg hba, if_neg hab] at h21
          have hn : a.toNat = b.toNat := by omega
          have hchar : a = b := Char.ext (UInt32.ext hn)
          rw [hchar, ih bs h12 h21]

/-- `>` is `<` with the arguments swapped, on sort-key values. -/
theorem kvGt_eq_kvLt_swap : ∀ a b : KV, kvGt a b = kvLt b a := by
  intro a b
  cases a <;> cases b <;> rfl

theorem kvLt_irrefl : ∀ a : KV, kvLt a a = false := by
  intro a
  cases a with
  | str s => exact listLtB_irrefl s.data
  | num n => simp [kvLt]

theorem kvLt_asymm : ∀ a b : KV, kvLt a b = true → kvLt b a = false := by
  intro a b h
  cases a <;> cases b <;> first
    | cases h
    | exact listLtB_asymm _ _ h
    | (simp [kvLt] at h ⊢; omega)

theorem kvLt_trans : ∀ a b c : KV,
    kvLt a b = true → kvLt b c = true → kvLt a c = true := by
  intro a b c h12 h23
  cases a <;> cases b <;> cases c <;> first
    | cases h12
    | cases h23
    | exact listLtB_trans _ _ _ h12 h23
    | (simp [kvLt] at h12 h23 ⊢; omega)

/-- The constructor of a sort-key value (`true` = string, `false` = number). -/
def kvShape : KV → Bool
  | KV.str _ => true
  | KV.num _ => false

theorem kv_eq_of_not_lt : ∀ a b : KV, kvShape a = kvShape b →
    kvLt a b = false → kvLt b a = false → a = b := by
  intro a b hsh h12 h21
  cases a with
  | str s =>
    cases b with
    | str t =>
      have hd : s.data = t.data := listLtB_eq_of_not s.data t.data h12 h21
      cases s
      cases t
      exact congrArg (fun d => KV.str ⟨d⟩) hd
    | num y => cases hsh
  | num x =>
    cases b with
    | str t => cases hsh
    | num y =>
      simp [kvLt] at h12 h21
      have hxy : x = y := by omega
      rw [hxy]

/-- The shape of a key vector: constructor kind and order string per
position.  All items built by one `xPathSort` call share the shape, since
each sort criterion has one fixed `type` and `order`. -/
def HasShape : List (Bool × String) → List (KV × String) → Prop
  | [], [] => True
  | sh :: shs, kv :: kvs => kvShape kv.1 = sh.1 ∧ kv.2 = sh.2 ∧ HasShape shs kvs
  | _ :: _, [] => False
  | [], _ :: _ => False

theorem hasShape_nil_inv : ∀ {k : List (KV × String)}, HasShape [] k → k = [] := by
  intro k h
  cases k with
  | nil => rfl
  | cons hd t => exact h.elim

theorem hasShape_cons_inv {sh : Bool × String} {shs : List (Bool × String)}
    {k : List (KV × String)} (h : HasShape (sh :: shs) k) :
    ∃ kv o t, k = (kv, o) :: t ∧ kvShape kv = sh.1 ∧ o = sh.2 ∧ HasShape shs t := by
  cases k with
  | nil => exact h.elim
  | cons hd t =>
    exact ⟨hd.1, hd.2, t, by rw [Prod.mk.eta], h.1, h.2.1, h.2.2⟩

/-- Unfolding of the head comparison of `sortKeysCompare`. -/
theorem sortKeysCompare_cons (k1 k2 : KV) (o1 o2 : String)
    (t1 t2 : List (KV × String)) :
    sortKeysCompare ((k1, o1) :: t1) ((k2, o2) :: t2) =
      (if kvGt k1 k2 then (if o1 = "descending" then (-1 : Int) else 1)
       else if kvLt k1 k2 then -(if o1 = "descending" then (-1 : Int) else 1)
       else sortKeysCompare t1 t2) := rfl

/-- On same-shape key vectors, `xPathSortByKey`'s comparison is
antisymmetric. -/
theorem sortKeysCompare_antisymm : ∀ (shape : List (Bool × String))
    (k1 k2 : List (KV × String)), HasShape shape k1 → HasShape shape k2 →
    sortKeysCompare k1 k2 = -sortKeysCompare k2 k1 := by
  intro shape
  induction shape with
  | nil =>
    intro k1 k2 h1 h2
    rw [hasShape_nil_inv h1, hasShape_nil_inv h2]
    rfl
  | cons sh shs ih =>
    intro k1 k2 h1 h2
    obtain ⟨a, o1, t1, he1, hsa, ho1, ht1⟩ := hasShape_cons_inv h1
    obtain ⟨b, o2, t2, he2, hsb, ho2, ht2⟩ := hasShape_cons_inv h2
    subst he1
    subst he2
    rw [sortKeysCompare_cons, sortKeysCompare_cons, ho1, ho2]
    set o : Int := if sh.2 = "descending" then (-1 : Int) else 1 with hodef
    by_cases hab : kvGt a b = true
    · have hba : kvLt b a = true := by rw [← kvGt_eq_kvLt_swap]; exact hab
      have hlab : kvLt a b = false := kvLt_asymm b a hba
      have hgba : kvGt b a = false := by rw [kvGt_eq_kvLt_swap]; exact hlab
      rw [if_pos hab, if_neg (by rw [hgba]; exact Bool.false_ne_true),
          if_pos (by rw [hba])]
      omega
    · have hgab : kvGt a b = false := by revert hab; cases kvGt a b <;> simp
      by_cases hlab : kvLt a b = true
      · have hgba : kvGt b a = true := by rw [kvGt_eq_kvLt_swap]; exact hlab
        rw [if_neg (by rw [hgab]; exact Bool.false_ne_true), if_pos hlab, if_pos hgba]
      · have hlabf : kvLt a b = false := by revert hlab; cases kvLt a b <;> simp
        have hgba : kvGt b a = false := by rw [kvGt_eq_kvLt_swap]; exact hlabf
        have hlba : kvLt b a = false := by rw [← kvGt_eq_kvLt_swap]; exact hgab
        rw [if_neg (by rw [hgab]; exact Bool.false_ne_true),
            if_neg (by rw [hlabf]; exact Bool.false_ne_true),
            if_neg (by rw [hgba]; exact Bool.false_ne_true),
            if_neg (by rw [hlba]; exact Bool.false_ne_true)]
        exact ih t1 t2 ht1 ht2

/-- On same-shape key vectors, `xPathSortByKey`'s comparison is transitive. -/
theorem sortKeysCompare_trans : ∀ (shape : List (Bool × String))
    (k1 k2 k3 : List (KV × String)),
    HasShape shape k1 → HasShape shape k2 → HasShape shape k3 →
    sortKeysCompare k1 k2 ≤ 0 → sortKeysCompare k2 k3 ≤ 0 →
    sortKeysCompare k1 k3 ≤ 0 := by
  intro shape
  induction shape with
  | nil =>
    intro k1 k2 k3 h1 h2 h3 _ _
    rw [hasShape_nil_inv h1, hasShape_nil_inv h3]
    exact le_refl 0
  | cons sh shs ih =>
    intro k1 k2 k3 h1 h2 h3 h12 h23
    obtain ⟨a, o1, t1, he1, hsa, ho1, ht1⟩ := hasShape_cons_inv h1
    obtain ⟨b, o2, t2, he2, hsb, ho2, ht2⟩ := hasShape_cons_inv h2
    obtain ⟨c, o3, t3, he3, hsc, ho3, ht3⟩ := hasShape_cons_inv h3
    subst he1
    subst he2
    subst he3
    rw [sortKeysCompare_cons, ho1] at h12
    rw [sortKeysCompare_cons, ho2] at h23
    rw [sortKeysCompare_cons, ho1]
    have hoval : (if sh.2 = "descending" then (-1 : Int) else 1) = 1 ∨
        (if sh.2 = "descending" then (-1 : Int) else 1) = -1 := by
      by_cases hdesc : sh.2 = "descending"
      · rw [if_pos hdesc]; right; rfl
      · rw [if_neg hdesc]; left; rfl
    set o : Int := if sh.2 = "descending" then (-1 : Int) else 1 with hodef
    by_cases hab : kvGt a b = true
    · rw [if_pos hab] at h12
      have ho : o = -1 := by rcases hoval with h | h <;> omega
      by_cases hbc : kvGt b c = true
      · have hac : kvGt a c = true := by
          rw [kvGt_eq_kvLt_swap] at hab hbc ⊢
          exact kvLt_trans c b a hbc hab
        rw [if_pos hac]
        omega
      · have hbcf : kvGt b c = false := by revert hbc; cases kvGt b c <;> simp
        by_cases hlbc : kvLt b c = true
        · rw [if_neg (by rw [hbcf]; exact Bool.false_ne_true), if_pos hlbc] at h23
          omega
        · have hlbcf : kvLt b c = false := by revert hlbc; cases kvLt b c <;> simp
          have hbceq : b = c := kv_eq_of_not_lt b c (by rw [hsb, hsc])
            hlbcf (by rw [← kvGt_eq_kvLt_swap]; exact hbcf)
          rw [← hbceq, if_pos hab]
          omega
    · have habf : kvGt a b = false := by revert hab; cases kvGt a b <;> simp
      by_cases hlab : kvLt a b = true
      · rw [if_neg (by rw [habf]; exact Bool.false_ne_true), if_pos hlab] at h12
        have ho : o = 1 := by rcases hoval with h | h <;> omega
        by_cases hbc : kvGt b c = true
        · rw [if_pos hbc] at h23
          omega
        · have hbcf : kvGt b c = false := by revert hbc; cases kvGt b c <;> simp
          by_cases hlbc : kvLt b c = true
          · have hlac : kvLt a c = true := kvLt_trans a b c hlab hlbc
            have hacf : kvGt a c = false := by
              rw [kvGt_eq_kvLt_swap]
              exact kvLt_asymm a c hlac
            rw [if_neg (by rw [hacf]; exact Bool.false_ne_true), if_pos hlac]
            omega
          · have hlbcf : kvLt b c = false := by revert hlbc; cases kvLt b c <;> simp
            have hbceq : b = c := kv_eq_of_not_lt b c (by rw [hsb, hsc])
              hlbcf (by rw [← kvGt_eq_kvLt_swap]; exact hbcf)
            have hacf : kvGt a c = false := by rw [← hbceq]; exact habf
            have hlac : kvLt a c = true := by rw [← hbceq]; exact hlab
            rw [if_neg (by rw [hacf]; exact Bool.false_ne_true), if_pos hlac]
            omega
      · have hlabf : kvLt a b = false := by revert hlab; cases kvLt a b <;> simp
        have habeq : a = b := kv_eq_of_not_lt a b (by rw [hsa, hsb])
          hlabf (by rw [← kvGt_eq_kvLt_swap]; exact habf)
        subst habeq
        rw [if_neg (by rw [habf]; exact Bool.false_ne_true),
            if_neg (by rw [hlabf]; exact Bool.false_ne_true)] at h12
        by_cases hbc : kvGt a c = true
        · rw [if_pos hbc] at h23
          rw [if_pos hbc]
          exact h23
        · have hbcf : kvGt a c = false := by revert hbc; cases kvGt a c <;> simp
          by_cases hlbc : kvLt a c = true
          · rw [if_neg (by rw [hbcf]; exact Bool.false_ne_true), if_pos hlbc] at h23
            rw [if_neg (by rw [hbcf]; exact Bool.false_ne_true), if_pos hlbc]
            exact h23
          · have hlbcf : kvLt a c = false := by revert hlbc; cases kvLt a c <;> simp
            rw [if_neg (by rw [hbcf]; exact Bool.false_ne_true),
                if_neg (by rw [hlbcf]; exact Bool.false_ne_true)] at h23
            rw [if_neg (by rw [hbcf]; exact Bool.false_ne_true),
                if_neg (by rw [hlbcf]; exact Bool.false_ne_true)]
            exact ih t1 t2 t3 ht1 ht2 ht3 h12 h23

theorem sortInsert_perm {α : Type} (cmp : α → α → Int) (x : α) :
    ∀ l : List α, (sortInsert cmp x l).Perm (x :: l) := by
  intro l
  induction l with
  | nil => exact List.Perm.refl _
  | cons y t ih =>
    show (if cmp x y ≤ 0 then x :: y :: t else y :: sortInsert cmp x t).Perm (x :: y :: t)
    by_cases h : cmp x y ≤ 0
    · rw [if_pos h]
    · rw [if_neg h]
      exact ((ih.cons y).trans (List.Perm.swap x y t))

theorem stableSort_perm {α : Type} (cmp : α → α → Int) :
    ∀ l : List α, (stableSort cmp l).Perm l := by
  intro l
  induction l with
  | nil => exact List.Perm.refl _
  | cons x t ih =>
    show (sortInsert cmp x (stableSort cmp t)).Perm (x :: t)
    exact (sortInsert_perm cmp x (stableSort cmp t)).trans (ih.cons x)

theorem sortInsert_pairwise {α : Type} (cmp : α → α → Int) (P : α → Prop)
    (total : ∀ a b, P a → P b → cmp a b ≤ 0 ∨ cmp b a ≤ 0)
    (trans : ∀ a b c, P a → P b → P c → cmp a b ≤ 0 → cmp b c ≤ 0 → cmp a c ≤ 0)
    (x : α) (hx : P x) :
    ∀ l : List α, (∀ y ∈ l, P y) →
      l.Pairwise (fun a b => cmp a b ≤ 0) →
      (sortInsert cmp x l).Pairwise (fun a b => cmp a b ≤ 0) := by
  intro l
  induction l with
  | nil => intro _ _; exact List.pairwise_singleton _ x
  | cons y t ih =>
    intro hl hs
    have hy : P y := hl y (by simp)
    have ht : ∀ z ∈ t, P z := fun z hz => hl z (List.mem_cons_of_mem _ hz)
    show (if cmp x y ≤ 0 then x :: y :: t else y :: sortInsert cmp x t).Pairwise _
    by_cases h : cmp x y ≤ 0
    · rw [if_pos h]
      refine List.Pairwise.cons ?_ hs
      intro z hz
      rcases List.mem_cons.mp hz with hq | hq
      · rw [hq]; exact h
      · exact trans x y z hx hy (ht z hq) h
          ((List.pairwise_cons.mp hs).1 z hq)
    · rw [if_neg h]
      refine List.Pairwise.cons ?_ (ih ht (List.pairwise_cons.mp hs).2)
      intro z hz
      have hz' := (sortInsert_perm cmp x t).mem_iff.mp hz
      rcases List.mem_cons.mp hz' with hq | hq
      · rw [hq]
        rcases total x y hx hy with hc | hc
        · exact absurd hc h
        · exact hc
      · exact (List.pairwise_cons.mp hs).1 z hq

theorem stableSort_pairwise {α : Type} (cmp : α → α → Int) (P : α → Prop)
    (total : ∀ a b, P a → P b → cmp a b ≤ 0 ∨ cmp b a ≤ 0)
    (trans : ∀ a b c, P a → P b → P c → cmp a b ≤ 0 → cmp b c ≤ 0 → cmp a c ≤ 0) :
    ∀ l : List α, (∀ y ∈ l, P y) →
      (stableSort cmp l).Pairwise (fun a b => cmp a b ≤ 0) := by
  intro l
  induction l with
  | nil => intro _; exact List.Pairwise.nil
  | cons x t ih =>
    intro hl
    have ht : ∀ z ∈ t, P z := fun z hz => hl z (List.mem_cons_of_mem _ hz)
    show (sortInsert cmp x (stableSort cmp t)).Pairwise _
    exact sortInsert_pairwise cmp P total trans x (hl x (by simp))
      (stableSort cmp t)
      (fun y hy => ht y ((stableSort_perm cmp t).mem_iff.mp hy))
      (ih ht)

/-- The key-vector shape shared by every item one `xPathSort` call builds. -/
def sortShape {Node : Type} (sort : List (SortSpec Node)) : List (Bool × String) :=
  sort.map (fun s =>
    ((match s.keyEval with
      | SortKeyEval.text _ => true
      | SortKeyEval.num _ => false), s.order)) ++ [(false, "ascending")]

theorem hasShape_builtKey {Node : Type} (sort : List (SortSpec Node)) (n : Node) (i : Nat) :
    HasShape (sortShape sort)
      (sort.map (fun s => (sortKeyValue s.keyEval n, s.order)) ++
        [(KV.num i, "ascending")]) := by
  induction sort with
  | nil => exact ⟨rfl, rfl, trivial⟩
  | cons s ss ih =>
    obtain ⟨ke, od⟩ := s
    refine ⟨?_, rfl, ih⟩
    cases ke with
    | text f => rfl
    | num f => rfl

theorem buildSortItems_props {Node : Type} (nodeList : List Node)
    (sort : List (SortSpec Node)) :
    ∀ item ∈ buildSortItems nodeList sort,
      HasShape (sortShape sort) item.key ∧
      ∃ u, item.key = u ++ [(KV.num item.idx, "ascending")] := by
  intro item hmem
  obtain ⟨p, -, hp⟩ := List.mem_map.mp hmem
  rw [← hp]
  exact ⟨hasShape_builtKey sort p.2 p.1,
    ⟨sort.map (fun s => (sortKeyValue s.keyEval p.2, s.order)), rfl⟩⟩

/-- Comparing two key vectors with equal leading values and the appended
ascending index keys yields the index comparison. -/
theorem sortKeysCompare_userEq : ∀ (u u' : List (KV × String)),
    u.map Prod.fst = u'.map Prod.fst → ∀ i j : Nat,
    sortKeysCompare (u ++ [(KV.num i, "ascending")]) (u' ++ [(KV.num j, "ascending")]) =
      (if (j : Int) < i then 1 else if (i : Int) < j then -1 else 0) := by
  intro u
  induction u with
  | nil =>
    intro u' h i j
    cases u' with
    | cons hd t => cases h
    | nil =>
      show (if kvGt (KV.num i) (KV.num j) then (1 : Int)
            else if kvLt (KV.num i) (KV.num j) then -(1 : Int)
            else sortKeysCompare [] []) = _
      by_cases hji : (j : Int) < i
      · rw [if_pos (by show decide _ = true; rw [decide_eq_true hji]), if_pos hji]
      · rw [if_neg (by show ¬decide _ = true; simp; omega), if_neg hji]
        by_cases hij : (i : Int) < j
        · rw [if_pos (by show decide _ = true; rw [decide_eq_true hij]), if_pos hij]
        · rw [if_neg (by show ¬decide _ = true; simp; omega), if_neg hij]
          rfl
  | cons hd t ih =>
    intro u' h i j
    cases u' with
    | nil => cases h
    | cons hd' t' =>
      rw [List.map_cons, List.map_cons] at h
      injection h with h1 h2
      obtain ⟨k, o⟩ := hd
      obtain ⟨k', o'⟩ := hd'
      simp only at h1
      subst h1
      show sortKeysCompare ((k, o) :: (t ++ [(KV.num i, "ascending")]))
          ((k, o') :: (t' ++ [(KV.num j, "ascending")])) = _
      rw [sortKeysCompare_cons,
          if_neg (by rw [kvGt_eq_kvLt_swap, kvLt_irrefl]; exact Bool.false_ne_true),
          if_neg (by rw [kvLt_irrefl]; exact Bool.false_ne_true)]
      exact ih t' h2 i j

/-- C9: `xPathSort` appends each node's original index in the context node
list as a final ascending sort key, so the sort is stable: any two items
whose user-supplied sort-key values are all pairwise equal appear in the
sorted list in strictly increasing original-index order (the order they had
in the input node list); `xPathSort`'s output node list reads the nodes off
that item list. -/
theorem xPathSortItems_stable {Node : Type} (nodeList : List Node)
    (sort : List (SortSpec Node)) :
    (xPathSortItems nodeList sort).Pairwise
      (fun a b => (a.key.map Prod.fst).dropLast = (b.key.map Prod.fst).dropLast →
        a.idx < b.idx) ∧
    xPathSort nodeList sort =
      (if sort.isEmpty then nodeList
       else (xPathSortItems nodeList sort).map (fun item => item.node)) := by
  refine ⟨?_, rfl⟩
  have hbuild := buildSortItems_props nodeList sort
  have hmemP : ∀ item ∈ xPathSortItems nodeList sort,
      HasShape (sortShape sort) item.key ∧
      ∃ u, item.key = u ++ [(KV.num item.idx, "ascending")] :=
    fun item hmem => hbuild item
      ((stableSort_perm xPathSortByKey (buildSortItems nodeList sort)).mem_iff.mp hmem)
  have htotal : ∀ a b : SortItem Node,
      (HasShape (sortShape sort) a.key ∧ ∃ u, a.key = u ++ [(KV.num a.idx, "ascending")]) →
      (HasShape (sortShape sort) b.key ∧ ∃ u, b.key = u ++ [(KV.num b.idx, "ascending")]) →
      xPathSortByKey a b ≤ 0 ∨ xPathSortByKey b a ≤ 0 := by
    intro a b ha hb
    have := sortKeysCompare_antisymm (sortShape sort) a.key b.key ha.1 hb.1
    show sortKeysCompare a.key b.key ≤ 0 ∨ sortKeysCompare b.key a.key ≤ 0
    omega
  have htrans : ∀ a b c : SortItem Node,
      (HasShape (sortShape sort) a.key ∧ ∃ u, a.key = u ++ [(KV.num a.idx, "ascending")]) →
      (HasShape (sortShape sort) b.key ∧ ∃ u, b.key = u ++ [(KV.num b.idx, "ascending")]) →
      (HasShape (sortShape sort) c.key ∧ ∃ u, c.key = u ++ [(KV.num c.idx, "ascending")]) →
      xPathSortByKey a b ≤ 0 → xPathSortByKey b c ≤ 0 → xPathSortByKey a c ≤ 0 :=
    fun a b c ha hb hc h12 h23 =>
      sortKeysCompare_trans (sortShape sort) a.key b.key c.key ha.1 hb.1 hc.1 h12 h23
  have hsorted : (xPathSortItems nodeList sort).Pairwise
      (fun a b => xPathSortByKey a b ≤ 0) :=
    stableSort_pairwise xPathSortByKey _ htotal htrans (buildSortItems nodeList sort) hbuild
  have hidx : ((buildSortItems nodeList sort).map (fun item => item.idx)) =
      List.range nodeList.length := by
    unfold buildSortItems
    rw [List.map_map]
    exact List.enum_map_fst nodeList
  have hnodup : (xPathSortItems nodeList sort).Pairwise (fun a b => a.idx ≠ b.idx) := by
    have hpm := (stableSort_perm xPathSortByKey (buildSortItems nodeList sort)).map
      (fun item => item.idx)
    have hnd : ((xPathSortItems nodeList sort).map (fun item => item.idx)).Nodup := by
      show ((stableSort xPathSortByKey (buildSortItems nodeList sort)).map
        (fun item => item.idx)).Nodup
      rw [hpm.nodup_iff, hidx]
      exact List.nodup_range _
    exact List.pairwise_map.mp hnd
  refine List.Pairwise.imp_of_mem ?_ (hsorted.and hnodup)
  intro a b hma hmb hab huser
  obtain ⟨hle, hne⟩ := hab
  obtain ⟨hshA, uA, hkeyA⟩ := hmemP a hma
  obtain ⟨hshB, uB, hkeyB⟩ := hmemP b hmb
  have huser' : uA.map Prod.fst = uB.map Prod.fst := by
    rw [hkeyA, hkeyB, List.map_append, List.map_append] at huser
    simpa [List.dropLast_concat] using huser
  have hcmp : sortKeysCompare a.key b.key ≤ 0 := hle
  rw [hkeyA, hkeyB, sortKeysCompare_userEq uA uB huser' a.idx b.idx] at hcmp
  by_cases hba : ((b.idx : Int) < (a.idx : Int))
  · rw [if_pos hba] at hcmp
    omega
  · omega
